import Mathlib

/-!
Shallow embedding of the AdamW optimizer with gradient surgery from
src/optimizer.py (the active class AdamW: __init__, gradient_surgery, step).

Tensors are modelled as flat lists of rationals together with a shape tag
(used only for the shape-equality test in gradient_surgery) and the
is_sparse flag.  Floating-point arithmetic is modelled as exact rational
arithmetic; the square roots (math.sqrt and torch.sqrt) are an abstract
function parameter sq, since no claim depends on any property of the
square root.  The expression g_j.norm().item() ** 2 is modelled as the sum
of squares of g_j (in exact arithmetic sqrt(x) ^ 2 = x for x >= 0).
Rational division in the main definitions is total with x / 0 = 0; where a
claim's quantified domain can reach a zero denominator (claim C8 at
eps = 0), the checked variants divDataChecked / updateChecked make the
elementwise division partial, returning none where IEEE float arithmetic
would produce NaN entries instead of the exact value.
-/

namespace AdamW

/-- A tensor: a shape tag, the flattened entries, and the is_sparse flag. -/
structure Tensor where
  shape : List ℕ
  data : List ℚ
  sparse : Bool
  deriving Repr, DecidableEq

instance : Inhabited Tensor := ⟨⟨[], [], false⟩⟩

/-- torch.zeros_like(p): a dense tensor of zeros with p's shape. -/
def zerosLike (p : Tensor) : Tensor :=
  ⟨p.shape, p.data.map fun _ => 0, false⟩

/-- Elementwise map over a tensor's entries (e.g. torch.sqrt). -/
def mapT (f : ℚ → ℚ) (a : Tensor) : Tensor :=
  ⟨a.shape, a.data.map f, a.sparse⟩

/-- Elementwise tensor addition. -/
def addT (a b : Tensor) : Tensor :=
  ⟨a.shape, List.zipWith (· + ·) a.data b.data, a.sparse⟩

/-- Elementwise tensor subtraction. -/
def subT (a b : Tensor) : Tensor :=
  ⟨a.shape, List.zipWith (· - ·) a.data b.data, a.sparse⟩

/-- Elementwise tensor division. -/
def divT (a b : Tensor) : Tensor :=
  ⟨a.shape, List.zipWith (· / ·) a.data b.data, a.sparse⟩

/-- Scalar multiplication of a tensor. -/
def smulT (c : ℚ) (a : Tensor) : Tensor :=
  ⟨a.shape, a.data.map fun x => c * x, a.sparse⟩

/-- Adding a scalar to every entry (the + eps broadcast). -/
def addScalarT (a : Tensor) (c : ℚ) : Tensor :=
  mapT (fun x => x + c) a

/-- torch.square: elementwise square. -/
def squareT (a : Tensor) : Tensor :=
  mapT (fun x => x * x) a

/-- torch.dot of the two flattened tensors.  Total over the entries: a
real torch.dot call raises on a sparse argument, so concrete inputs are
chosen such that the pass's shape test skips any pair involving a sparse
gradient before the dot product is reached. -/
def dotT (a b : Tensor) : ℚ :=
  (List.zipWith (· * ·) a.data b.data).sum

/-- g.norm().item() ** 2, in exact arithmetic the sum of squares of g. -/
def normSqT (a : Tensor) : ℚ :=
  (a.data.map fun x => x * x).sum

/-- The hyperparameter set stored by __init__ in the defaults dict.
correct_bias is stored by the constructor but never read by step. -/
structure Hyper where
  lr : ℚ
  beta1 : ℚ
  beta2 : ℚ
  eps : ℚ
  weight_decay : ℚ
  correct_bias : Bool
  deriving Repr, DecidableEq

/-- The per-parameter optimizer state self.state[p]: first moment m,
second moment v, step count t.  An absent state models the empty dict. -/
structure ParameterState where
  m : Tensor
  v : Tensor
  t : ℕ
  deriving Repr, DecidableEq

/-- One managed parameter: its value p.data, its attached gradient p.grad
(absent = None), and its entry in self.state (absent = empty dict). -/
structure ManagedParam where
  value : Tensor
  grad : Option Tensor
  state : Option ParameterState
  deriving Repr, DecidableEq

/-- The validation performed by AdamW.__init__ (optimizer.py lines 17-24):
lr < 0, beta1 outside [0,1), beta2 outside [0,1), eps < 0 each raise
ValueError, in that order; weight_decay is never checked. -/
def init (h : Hyper) : Except String Hyper :=
  if h.lr < 0 then
    Except.error "Invalid learning rate - should be nonnegative"
  else if ¬(0 ≤ h.beta1 ∧ h.beta1 < 1) then
    Except.error "Invalid beta parameter - should be in the unit interval"
  else if ¬(0 ≤ h.beta2 ∧ h.beta2 < 1) then
    Except.error "Invalid beta parameter - should be in the unit interval"
  else if ¬(0 ≤ h.eps) then
    Except.error "Invalid epsilon value - should be nonnegative"
  else
    Except.ok h

/-- Whether construction succeeds (no ValueError raised). -/
def initOk (h : Hyper) : Bool :=
  match init h with
  | Except.ok _ => true
  | Except.error _ => false

/-- The validity condition claimed by the spec (section 3): lr > 0,
beta1 and beta2 in [0,1), eps >= 0, weight_decay >= 0. -/
def validHyperSpec (h : Hyper) : Prop :=
  0 < h.lr ∧ 0 ≤ h.beta1 ∧ h.beta1 < 1 ∧ 0 ≤ h.beta2 ∧ h.beta2 < 1 ∧
    0 ≤ h.eps ∧ 0 ≤ h.weight_decay

instance (h : Hyper) : Decidable (validHyperSpec h) := by
  unfold validHyperSpec; infer_instance

/-- The body of the two nested loops of gradient_surgery for one pair
(i, j) (optimizer.py lines 35-39): if the shapes agree, compute the dot
product of the flattened tensors and, when it is positive, replace
grads[i] by grads[i] - g_dot / norm(grads[j])^2 * grads[j] in place.
The is-not-None guard of line 36 is vacuous here because step passes the
list of present gradients only. -/
def surgeryPair (gs : List Tensor) (i j : ℕ) : List Tensor :=
  let g_i := gs.getD i default
  let g_j := gs.getD j default
  if g_i.shape = g_j.shape then
    let g_dot := dotT g_i g_j
    if 0 < g_dot then
      gs.set i (subT g_i (smulT (g_dot / normSqT g_j) g_j))
    else gs
  else gs

/-- AdamW.gradient_surgery (optimizer.py lines 28-39): for i in
range(len(grads)), for j in range(i+1, len(grads)), apply surgeryPair.
The list length is invariant under surgeryPair, so len(grads) is fixed
up front. -/
def gradient_surgery (grads : List Tensor) : List Tensor :=
  let n := grads.length
  (List.range n).foldl
    (fun gs1 i =>
      ((List.range n).drop (i + 1)).foldl (fun gs2 j => surgeryPair gs2 i j) gs1)
    grads

/-- Specification-side single projection: when shapes agree and the dot
product is positive, project g_i onto the complement of g_j;
otherwise leave g_i unchanged. -/
def projectAgainst (g_i g_j : Tensor) : Tensor :=
  if g_i.shape = g_j.shape ∧ 0 < dotT g_i g_j then
    subT g_i (smulT (dotT g_i g_j / normSqT g_j) g_j)
  else g_i

/-- Specification-side description of the conflict-resolution pass, from
the spec's words: each g[i] is sequentially projected against the later
gradients g[j] (j > i, ascending), with later pairs involving i seeing
the already-updated g[i]; each g[j] is left unmodified by pair (i, j),
so the later gradients a given g[i] is folded against are still their
original values. -/
def surgerySpec : List Tensor → List Tensor
  | [] => []
  | g :: gs => gs.foldl projectAgainst g :: surgerySpec gs

/-- The per-parameter update body of AdamW.step (optimizer.py lines
64-79) given the hyperparameters, the stored state (None models the
empty state dict), the parameter value p and the consumed gradient g.
Returns the persisted state (m, v, t) and the new parameter value. -/
def update (sq : ℚ → ℚ) (h : Hyper) (st0 : Option ParameterState)
    (p g : Tensor) : ParameterState × Tensor :=
  let st := st0.getD ⟨zerosLike p, zerosLike p, 0⟩
  let t := st.t + 1
  let m := addT (smulT h.beta1 st.m) (smulT (1 - h.beta1) g)
  let v := addT (smulT h.beta2 st.v) (smulT (1 - h.beta2) (squareT g))
  let alpha_t := h.lr * sq (1 - h.beta2 ^ t) / (1 - h.beta1 ^ t)
  let p1 := subT p (divT (smulT alpha_t m) (addScalarT (mapT sq v) h.eps))
  let p2 := subT p1 (smulT (h.lr * h.weight_decay) p1)
  (⟨m, v, t⟩, p2)

/-- Re-insert the (surgery-mutated) present gradients into the positions
of the full snapshot list: the tensors passed to gradient_surgery are the
very objects stored in grads, so mutating them mutates the snapshot. -/
def mergeBack : List (Option Tensor) → List Tensor → List (Option Tensor)
  | [], _ => []
  | none :: rest, rs => none :: mergeBack rest rs
  | some _ :: rest, r :: rs => some r :: mergeBack rest rs
  | some g :: rest, [] => some g :: mergeBack rest []

/-- The inner update loop of AdamW.step over one parameter group
(optimizer.py lines 58-79).  idx is the enumerate counter, which restarts
at 0 for each group while merged is the global snapshot list; grads[idx]
therefore reads the global list at the group-local index, exactly as the
code does.  A sparse gradient raises, leaving the current parameter and
the rest of the list untouched (second component true = error). -/
def stepParams (sq : ℚ → ℚ) (h : Hyper) (merged : List (Option Tensor)) :
    List ManagedParam → ℕ → List ManagedParam × Bool
  | [], _ => ([], false)
  | p :: rest, idx =>
    match merged.getD idx none with
    | none =>
      let r := stepParams sq h merged rest (idx + 1)
      (p :: r.1, r.2)
    | some g =>
      if g.sparse then (p :: rest, true)
      else
        let u := update sq h p.state p.value g
        let r := stepParams sq h merged rest (idx + 1)
        (⟨u.2, p.grad, some u.1⟩ :: r.1, r.2)

/-- The outer loop of AdamW.step over parameter groups (lines 57-79);
a raised error aborts the whole call, so later groups stay untouched. -/
def stepGroups (sq : ℚ → ℚ) (h : Hyper) (merged : List (Option Tensor)) :
    List (List ManagedParam) → List (List ManagedParam) × Bool
  | [] => ([], false)
  | ps :: gs =>
    let r := stepParams sq h merged ps 0
    if r.2 then (r.1 :: gs, true)
    else
      let rs := stepGroups sq h merged gs
      (r.1 :: rs.1, rs.2)

/-- AdamW.step (optimizer.py lines 41-80), with a single defaults
hyperparameter set shared by all groups (as built by __init__).  Collects
a snapshot of every managed parameter's gradient across all groups in
order (clone modelled by value semantics), applies gradient_surgery to
the present ones (in-place mutation modelled by mergeBack), then runs the
per-group update loops.  The Bool is true when the call raised the
sparse-gradient RuntimeError. -/
def step (sq : ℚ → ℚ) (h : Hyper) (groups : List (List ManagedParam)) :
    List (List ManagedParam) × Bool :=
  let grads := groups.flatMap fun ps => ps.map fun p => p.grad
  let present := grads.filterMap id
  let resolved := gradient_surgery present
  let merged := mergeBack grads resolved
  stepGroups sq h merged groups

/-- Variant of surgeryPair with an additional explicit guard against a
zero denominator in the projection; used to state that the zero-norm
boundary condition is unreachable. -/
def surgeryPairGuarded (gs : List Tensor) (i j : ℕ) : List Tensor :=
  let g_i := gs.getD i default
  let g_j := gs.getD j default
  if g_i.shape = g_j.shape then
    let g_dot := dotT g_i g_j
    if 0 < g_dot ∧ normSqT g_j ≠ 0 then
      gs.set i (subT g_i (smulT (g_dot / normSqT g_j) g_j))
    else gs
  else gs

/-- gradient_surgery with the explicitly guarded pair body. -/
def gradient_surgeryGuarded (grads : List Tensor) : List Tensor :=
  let n := grads.length
  (List.range n).foldl
    (fun gs1 i =>
      ((List.range n).drop (i + 1)).foldl (fun gs2 j => surgeryPairGuarded gs2 i j) gs1)
    grads

/-- One step call on an optimizer managing a single parameter: the
parameter after step sq h on the one-group, one-parameter configuration. -/
def singleStep (sq : ℚ → ℚ) (h : Hyper) (mp : ManagedParam) : ManagedParam :=
  match step sq h [[mp]] with
  | ([[q]], _) => q
  | _ => mp

/-- Elementwise division that refuses a zero denominator: in IEEE float
arithmetic 0 / 0 is NaN, so a zero denominator never yields the exact
quotient; none models the NaN-poisoned outcome of the elementwise
division at optimizer.py line 77. -/
def divDataChecked : List ℚ → List ℚ → Option (List ℚ)
  | [], _ => some []
  | _ :: _, [] => some []
  | x :: xs, y :: ys =>
    if y = 0 then none
    else match divDataChecked xs ys with
      | none => none
      | some r => some (x / y :: r)

/-- divT with the zero-denominator check. -/
def divTChecked (a b : Tensor) : Option Tensor :=
  match divDataChecked a.data b.data with
  | none => none
  | some d => some ⟨a.shape, d, a.sparse⟩

/-- The per-parameter update with its elementwise division checked:
returns none exactly when the division alpha_t * m / (sqrt v + eps) of
optimizer.py line 77 meets a zero denominator, where the float program
computes NaN entries rather than the exact value.  On inputs where the
denominator is nonzero it agrees with update. -/
def updateChecked (sq : ℚ → ℚ) (h : Hyper) (st0 : Option ParameterState)
    (p g : Tensor) : Option (ParameterState × Tensor) :=
  let st := st0.getD ⟨zerosLike p, zerosLike p, 0⟩
  let t := st.t + 1
  let m := addT (smulT h.beta1 st.m) (smulT (1 - h.beta1) g)
  let v := addT (smulT h.beta2 st.v) (smulT (1 - h.beta2) (squareT g))
  let alpha_t := h.lr * sq (1 - h.beta2 ^ t) / (1 - h.beta1 ^ t)
  match divTChecked (smulT alpha_t m) (addScalarT (mapT sq v) h.eps) with
  | none => none
  | some q =>
    let p1 := subT p q
    let p2 := subT p1 (smulT (h.lr * h.weight_decay) p1)
    some (⟨m, v, t⟩, p2)

/-! ### Helper lemmas about list indexing and elementwise operations -/

theorem zipWith_getD (f : ℚ → ℚ → ℚ) (a : List ℚ) :
    ∀ (b : List ℚ) (k : ℕ), k < a.length → k < b.length →
      (List.zipWith f a b).getD k 0 = f (a.getD k 0) (b.getD k 0) := by
  induction a with
  | nil => intro b k hka _; simp at hka
  | cons x xs ih =>
    intro b k hka hkb
    cases b with
    | nil => simp at hkb
    | cons y ys =>
      cases k with
      | zero => simp
      | succ k =>
        simp only [List.zipWith_cons_cons, List.getD_cons_succ]
        exact ih ys k (by simpa using hka) (by simpa using hkb)

theorem map_getD (f : ℚ → ℚ) (a : List ℚ) :
    ∀ k : ℕ, k < a.length → (a.map f).getD k 0 = f (a.getD k 0) := by
  induction a with
  | nil => intro k hk; simp at hk
  | cons x xs ih =>
    intro k hk
    cases k with
    | zero => simp
    | succ k =>
      simp only [List.map_cons, List.getD_cons_succ]
      exact ih k (by simpa using hk)

theorem zipWith_map_same (f : ℚ → ℚ → ℚ) (g1 g2 : ℚ → ℚ) (l : List ℚ) :
    List.zipWith f (l.map g1) (l.map g2) = l.map fun x => f (g1 x) (g2 x) := by
  induction l with
  | nil => rfl
  | cons x xs ih => simp [ih]

theorem zipWith_map_right_same (f : ℚ → ℚ → ℚ) (g : ℚ → ℚ) (l : List ℚ) :
    List.zipWith f l (l.map g) = l.map fun x => f x (g x) := by
  induction l with
  | nil => rfl
  | cons x xs ih => simp [ih]

theorem subT_smulT_self (c : ℚ) (a : Tensor) : subT a (smulT c a) = smulT (1 - c) a := by
  unfold subT smulT
  rw [zipWith_map_right_same]
  congr 1
  exact List.map_congr_left fun x _ => by ring

theorem smulT_one (a : Tensor) : smulT 1 a = a := by
  unfold smulT
  have : a.data.map (fun x => 1 * x) = a.data := by
    rw [List.map_congr_left fun x _ => one_mul x]; exact List.map_id a.data
  rw [this]

/-- A step call on a singleton configuration (one group, one parameter
with a present dense gradient) applies the per-parameter update body and
persists the resulting moments and counter. -/
theorem step_singleton (sq : ℚ → ℚ) (h : Hyper) (p g : Tensor)
    (st0 : Option ParameterState) (hsp : g.sparse = false) :
    step sq h [[⟨p, some g, st0⟩]] =
      ([[⟨(update sq h st0 p g).2, some g, some (update sq h st0 p g).1⟩]], false) := by
  rcases g with ⟨sh, d, sp⟩
  simp only at hsp
  subst hsp
  rfl

/-! ### Claim theorems -/

/-- C3: the step's gradient snapshot is a single flat list over all
groups, but the update loop indexes it with the group-local enumerate
counter.  With two groups of one parameter each (gradients [1] and [-1],
no projection since their dot product is negative), the second group's
parameter consumes grads[0] = [1], the first parameter's gradient,
instead of its own resolved gradient [-1]: its post-step value is [-1/2],
while the per-parameter update applied to its own gradient gives [1/2].
Hyperparameters lr = 1, beta1 = beta2 = 0, eps = 1, weight_decay = 0;
sq is the identity. -/
theorem C3_cross_group_gradient_bug :
    (step id ⟨1, 0, 0, 1, 0, true⟩
        [[⟨⟨[1], [0], false⟩, some ⟨[1], [1], false⟩, none⟩],
         [⟨⟨[1], [0], false⟩, some ⟨[1], [-1], false⟩, none⟩]] =
      ([[⟨⟨[1], [-1/2], false⟩, some ⟨[1], [1], false⟩,
            some ⟨⟨[1], [1], false⟩, ⟨[1], [1], false⟩, 1⟩⟩],
        [⟨⟨[1], [-1/2], false⟩, some ⟨[1], [-1], false⟩,
            some ⟨⟨[1], [1], false⟩, ⟨[1], [1], false⟩, 1⟩⟩]], false)) ∧
    (update id ⟨1, 0, 0, 1, 0, true⟩ none ⟨[1], [0], false⟩ ⟨[1], [-1], false⟩).2 =
      ⟨[1], [1/2], false⟩ ∧
    (⟨[1], [-1/2], false⟩ : Tensor) ≠ ⟨[1], [1/2], false⟩ := by
  refine ⟨?_, ?_, ?_⟩ <;> with_unfolding_all decide

/-- C7: a parameter whose attached gradient is absent is nevertheless
updated when it sits in a later group, because the update loop reads the
global snapshot list at the group-local index.  Here the second group's
parameter has grad = None, yet its value changes from [0] to [-1/2] and a
ParameterState with t = 1 is created for it (it consumes the first
parameter's gradient [1]).  Hyperparameters as in C3. -/
theorem C7_absent_gradient_not_skipped :
    step id ⟨1, 0, 0, 1, 0, true⟩
        [[⟨⟨[1], [0], false⟩, some ⟨[1], [1], false⟩, none⟩],
         [⟨⟨[1], [0], false⟩, none, none⟩]] =
      ([[⟨⟨[1], [-1/2], false⟩, some ⟨[1], [1], false⟩,
            some ⟨⟨[1], [1], false⟩, ⟨[1], [1], false⟩, 1⟩⟩],
        [⟨⟨[1], [-1/2], false⟩, none,
            some ⟨⟨[1], [1], false⟩, ⟨[1], [1], false⟩, 1⟩⟩]], false) := by
  with_unfolding_all decide

/-- C9: a sparse snapshot gradient does not make the step call raise.
The sparse gradient has shape [1,1] while its dense peer has shape [1],
so the conflict-resolution pass skips their pair at the shape test of
optimizer.py line 36, before torch.dot is reached (torch.dot has no
sparse kernel, so an equal-shape pair would already abort inside the
pass; this input keeps the sparse tensor untouched by the pass, exactly
as in the real execution).  The group-local enumerate index then makes
the update loop read grads[0] (dense) for the second group's parameter:
no RuntimeError is raised (error flag false) and that parameter is
updated with the first parameter's gradient, its own sparse gradient
never being reached.  In torch the shape-[1] moment tensors broadcast
against the shape-[1,1] parameter, giving the same single entry as the
elementwise model here.  Hyperparameters lr = 1, beta1 = beta2 = 0,
eps = 1, weight_decay = 0; sq is the identity. -/
theorem C9_sparse_gradient_not_raised :
    step id ⟨1, 0, 0, 1, 0, true⟩
        [[⟨⟨[1], [0], false⟩, some ⟨[1], [1], false⟩, none⟩],
         [⟨⟨[1, 1], [0], false⟩, some ⟨[1, 1], [-1], true⟩, none⟩]] =
      ([[⟨⟨[1], [-1/2], false⟩, some ⟨[1], [1], false⟩,
            some ⟨⟨[1], [1], false⟩, ⟨[1], [1], false⟩, 1⟩⟩],
        [⟨⟨[1, 1], [-1/2], false⟩, some ⟨[1, 1], [-1], true⟩,
            some ⟨⟨[1, 1], [1], false⟩, ⟨[1, 1], [1], false⟩, 1⟩⟩]], false) := by
  with_unfolding_all decide

/-- C4 counterexample: for g0 = [1,0], g1 = [1,1], g2 = [0,1] the claim
fails: the premise that the dot products are pairwise positive is false
(g0 dot g2 = 0), and g0 is not projected twice: after the (0,1)
projection the updated g0 = [1/2,-1/2] has negative dot with g2, so the
(0,2) pair is skipped, and the pass's resulting g0 differs from the value
predicted by applying both projection formulas in sequence
(which would be [1/2, 0]). -/
theorem C4_counterexample :
    ¬ (0 < dotT ⟨[2], [1, 0], false⟩ ⟨[2], [0, 1], false⟩) ∧
    (gradient_surgery
        [⟨[2], [1, 0], false⟩, ⟨[2], [1, 1], false⟩, ⟨[2], [0, 1], false⟩]).getD 0 default ≠
      subT
        (subT ⟨[2], [1, 0], false⟩
          (smulT
            (dotT ⟨[2], [1, 0], false⟩ ⟨[2], [1, 1], false⟩ / normSqT ⟨[2], [1, 1], false⟩)
            ⟨[2], [1, 1], false⟩))
        (smulT
          (dotT
              (subT ⟨[2], [1, 0], false⟩
                (smulT
                  (dotT ⟨[2], [1, 0], false⟩ ⟨[2], [1, 1], false⟩ /
                    normSqT ⟨[2], [1, 1], false⟩)
                  ⟨[2], [1, 1], false⟩))
              ⟨[2], [0, 1], false⟩ / normSqT ⟨[2], [0, 1], false⟩)
          ⟨[2], [0, 1], false⟩) := by
  refine ⟨?_, ?_⟩ <;> with_unfolding_all decide

/-- C4 amended: on g0 = [1,0], g1 = [1,1], g2 = [0,1] the pass projects
g0 once, against g1, giving g0 = [1/2,-1/2]; the (0,2) pair leaves g0
unchanged because the already-updated g0 has dot -1/2 with g2, which is
not positive; the (1,2) pair projects g1 against g2 giving g1 = [1,0];
and g2 is never modified. -/
theorem C4_amended :
    gradient_surgery
        [⟨[2], [1, 0], false⟩, ⟨[2], [1, 1], false⟩, ⟨[2], [0, 1], false⟩] =
      [⟨[2], [1/2, -1/2], false⟩, ⟨[2], [1, 0], false⟩, ⟨[2], [0, 1], false⟩] ∧
    ¬ (0 < dotT ⟨[2], [1/2, -1/2], false⟩ ⟨[2], [0, 1], false⟩) := by
  refine ⟨?_, ?_⟩ <;> with_unfolding_all decide

/-- The raised-error flag of the per-group update loop does not depend on
the hyperparameters or on the square-root function: it is determined by
the snapshot list alone. -/
theorem stepParams_err_indep (sq sq' : ℚ → ℚ) (h h' : Hyper)
    (merged : List (Option Tensor)) :
    ∀ (l : List ManagedParam) (idx : ℕ),
      (stepParams sq h merged l idx).2 = (stepParams sq' h' merged l idx).2 := by
  intro l
  induction l with
  | nil => intro idx; rfl
  | cons p rest ih =>
    intro idx
    unfold stepParams
    cases hm : merged.getD idx none with
    | none => simpa using ih (idx + 1)
    | some g =>
      cases hg : g.sparse with
      | true => simp [hg]
      | false => simpa [hg] using ih (idx + 1)

/-- The raised-error flag of the outer group loop does not depend on the
hyperparameters or on the square-root function. -/
theorem stepGroups_err_indep (sq sq' : ℚ → ℚ) (h h' : Hyper)
    (merged : List (Option Tensor)) :
    ∀ gss : List (List ManagedParam),
      (stepGroups sq h merged gss).2 = (stepGroups sq' h' merged gss).2 := by
  intro gss
  induction gss with
  | nil => rfl
  | cons ps gs ih =>
    simp only [stepGroups]
    rw [stepParams_err_indep sq sq' h h' merged ps 0]
    cases hr : (stepParams sq' h' merged ps 0).2 with
    | true => simp [hr]
    | false => simpa [hr] using ih

/-- The raised-error flag of a whole step call does not depend on the
hyperparameters or on the square-root function. -/
theorem step_err_indep (sq sq' : ℚ → ℚ) (h h' : Hyper)
    (groups : List (List ManagedParam)) :
    (step sq h groups).2 = (step sq' h' groups).2 := by
  exact stepGroups_err_indep sq sq' h h' _ groups

/-- C5 counterexample: lr = 0 violates the claimed lr > 0 requirement and
weight_decay = -1 violates the claimed weight_decay >= 0 requirement, yet
construction succeeds: __init__ only rejects lr < 0 and never checks
weight_decay, so failure is not exactly at the claimed validity
boundary. -/
theorem C5_counterexample :
    initOk ⟨0, 0, 0, 0, -1, true⟩ = true ∧
      ¬ validHyperSpec ⟨0, 0, 0, 0, -1, true⟩ := by
  refine ⟨?_, ?_⟩ <;> with_unfolding_all decide

/-- C5 amended: construction fails with a ValueError exactly when lr < 0,
beta1 outside [0,1), beta2 outside [0,1), or eps < 0 (weight_decay is
never validated and lr = 0 is accepted); every hyperparameter set that is
valid in the spec's sense is accepted; and no step call ever fails
because of a hyperparameter value (the raised-error flag of step is
independent of the hyperparameters and of the square-root function). -/
theorem C5_amended :
    (∀ h : Hyper, initOk h = true ↔
        (0 ≤ h.lr ∧ 0 ≤ h.beta1 ∧ h.beta1 < 1 ∧ 0 ≤ h.beta2 ∧ h.beta2 < 1 ∧
          0 ≤ h.eps)) ∧
    (∀ h : Hyper, validHyperSpec h → initOk h = true) ∧
    (∀ (sq sq' : ℚ → ℚ) (h h' : Hyper) (groups : List (List ManagedParam)),
        (step sq h groups).2 = (step sq' h' groups).2) := by
  have main : ∀ h : Hyper, initOk h = true ↔
      (0 ≤ h.lr ∧ 0 ≤ h.beta1 ∧ h.beta1 < 1 ∧ 0 ≤ h.beta2 ∧ h.beta2 < 1 ∧
        0 ≤ h.eps) := by
    intro h
    unfold initOk init
    split_ifs with h1 h2 h3 h4 <;>
      first
        | exact iff_of_true rfl ⟨not_lt.mp h1, h2.1, h2.2, h3.1, h3.2, h4⟩
        | exact iff_of_false (by simp) fun hc => absurd hc.1 (not_le.mpr h1)
        | exact iff_of_false (by simp) fun hc => h2 ⟨hc.2.1, hc.2.2.1⟩
        | exact iff_of_false (by simp) fun hc => h3 ⟨hc.2.2.2.1, hc.2.2.2.2.1⟩
        | exact iff_of_false (by simp) fun hc => h4 hc.2.2.2.2.2
  exact ⟨main,
    fun h hv => (main h).mpr
      ⟨le_of_lt hv.1, hv.2.1, hv.2.2.1, hv.2.2.2.1, hv.2.2.2.2.1,
        hv.2.2.2.2.2.1⟩,
    step_err_indep⟩

/-- C5 witness: a concrete valid hyperparameter set is accepted by the
constructor, via the amended theorem. -/
theorem C5_witness : initOk ⟨1, 1/2, 1/2, 1, 0, true⟩ = true :=
  C5_amended.2.1 ⟨1, 1/2, 1/2, 1, 0, true⟩ (by with_unfolding_all decide)

/-- C6: decoupled decay law.  With weight_decay = w and all else fixed,
the per-parameter update of a step call produces exactly the state the
w = 0 run produces, and the parameter value of the w = 0 run multiplied
elementwise by (1 - lr * w). -/
theorem C6_decoupled_decay (sq : ℚ → ℚ) (h : Hyper)
    (st0 : Option ParameterState) (p g : Tensor) (hw : 0 < h.weight_decay) :
    (update sq h st0 p g).1 =
      (update sq ⟨h.lr, h.beta1, h.beta2, h.eps, 0, h.correct_bias⟩ st0 p g).1 ∧
    (update sq h st0 p g).2 =
      smulT (1 - h.lr * h.weight_decay)
        (update sq ⟨h.lr, h.beta1, h.beta2, h.eps, 0, h.correct_bias⟩ st0 p g).2 := by
  refine ⟨rfl, ?_⟩
  simp only [update]
  rw [subT_smulT_self, subT_smulT_self, mul_zero, sub_zero, smulT_one]

/-- C6 witness: the state equality of the decay law at a concrete input
with weight_decay = 1/2. -/
theorem C6_witness :
    (update id ⟨1, 0, 0, 1, 1/2, true⟩ none ⟨[1], [1], false⟩ ⟨[1], [1], false⟩).1 =
      (update id ⟨1, 0, 0, 1, 0, true⟩ none ⟨[1], [1], false⟩ ⟨[1], [1], false⟩).1 :=
  (C6_decoupled_decay id ⟨1, 0, 0, 1, 1/2, true⟩ none ⟨[1], [1], false⟩
    ⟨[1], [1], false⟩ (by norm_num)).1

theorem sum_sq_nonneg (l : List ℚ) : 0 ≤ (l.map fun x => x * x).sum := by
  refine List.sum_nonneg ?_
  intro x hx
  rcases List.mem_map.mp hx with ⟨y, _, rfl⟩
  exact mul_self_nonneg y

theorem all_zero_of_sum_sq_zero :
    ∀ l : List ℚ, (l.map fun x => x * x).sum = 0 → ∀ x ∈ l, x = 0 := by
  intro l
  induction l with
  | nil => intro _ x hx; simp at hx
  | cons y ys ih =>
    intro hsum x hx
    rw [List.map_cons, List.sum_cons] at hsum
    have h1 : 0 ≤ y * y := mul_self_nonneg y
    have h2 : 0 ≤ (ys.map fun x => x * x).sum := sum_sq_nonneg ys
    have hy : y * y = 0 := by linarith
    rcases List.mem_cons.mp hx with rfl | hmem
    · exact mul_self_eq_zero.mp hy
    · exact ih (by linarith) x hmem

theorem dot_sum_zero :
    ∀ (l1 l2 : List ℚ), (∀ x ∈ l2, x = 0) →
      (List.zipWith (· * ·) l1 l2).sum = 0 := by
  intro l1
  induction l1 with
  | nil => intro l2 _; simp
  | cons x xs ih =>
    intro l2 hz
    cases l2 with
    | nil => simp
    | cons y ys =>
      rw [List.zipWith_cons_cons, List.sum_cons]
      rw [hz y (List.mem_cons_self y ys)]
      rw [ih ys fun z hzz => hz z (List.mem_cons_of_mem y hzz)]
      ring

/-- C10: the projection's division by the squared norm of g[j] happens
only under the d > 0 guard, and a positive dot product forces a nonzero
(indeed positive) squared norm, so the zero-denominator boundary is
unreachable: gradient_surgery agrees with its explicitly guarded variant
on every input list. -/
theorem C10_no_zero_denominator :
    (∀ a b : Tensor, 0 < dotT a b → 0 < normSqT b) ∧
    (∀ gs : List Tensor, gradient_surgery gs = gradient_surgeryGuarded gs) := by
  have key : ∀ a b : Tensor, 0 < dotT a b → 0 < normSqT b := by
    intro a b hd
    have hn : 0 ≤ normSqT b := sum_sq_nonneg b.data
    rcases eq_or_lt_of_le hn with hz | hp
    · exfalso
      have hall : ∀ x ∈ b.data, x = 0 := all_zero_of_sum_sq_zero b.data hz.symm
      have : dotT a b = 0 := dot_sum_zero a.data b.data hall
      rw [this] at hd
      exact lt_irrefl 0 hd
    · exact hp
  refine ⟨key, ?_⟩
  have hpair : ∀ (gs : List Tensor) (i j : ℕ),
      surgeryPairGuarded gs i j = surgeryPair gs i j := by
    intro gs i j
    have hiff : ∀ a b : Tensor,
        (0 < dotT a b ∧ normSqT b ≠ 0) ↔ 0 < dotT a b :=
      fun a b => ⟨And.left, fun hd => ⟨hd, ne_of_gt (key a b hd)⟩⟩
    simp only [surgeryPairGuarded, surgeryPair, hiff]
  intro gs
  unfold gradient_surgery gradient_surgeryGuarded
  simp only [hpair]

/-- C10 witness: a concrete application of the positive-norm fact. -/
theorem C10_witness : 0 < normSqT ⟨[2], [1, 1], false⟩ :=
  C10_no_zero_denominator.1 ⟨[2], [1, 0], false⟩ ⟨[2], [1, 1], false⟩
    (by with_unfolding_all decide)

theorem sub_smul_getD (c : ℚ) (a : Tensor) (k : ℕ) (hk : k < a.data.length) :
    (subT a (smulT c a)).data.getD k 0 =
      a.data.getD k 0 - c * a.data.getD k 0 := by
  unfold subT smulT
  rw [zipWith_getD _ _ _ k hk (by simpa using hk), map_getD _ _ k hk]

theorem p1_getD (α eps : ℚ) (sq : ℚ → ℚ) (p M V : Tensor) (k : ℕ)
    (hp : k < p.data.length) (hM : k < M.data.length) (hV : k < V.data.length) :
    (subT p (divT (smulT α M) (addScalarT (mapT sq V) eps))).data.getD k 0 =
      p.data.getD k 0 - α * M.data.getD k 0 / (sq (V.data.getD k 0) + eps) := by
  unfold subT divT smulT addScalarT mapT
  rw [zipWith_getD _ _ _ k hp
      (by simp only [List.length_zipWith, List.length_map]; omega),
    zipWith_getD _ _ _ k (by simpa using hM) (by simpa using hV),
    map_getD _ _ k hM, map_getD _ _ k (by simpa using hV), map_getD _ _ k hV]

/-- C1: the per-parameter update of a step call on a parameter with a
present (conflict-resolved, dense) gradient g performs exactly: the step
count is incremented; elementwise m becomes beta1 * m + (1 - beta1) * g
and v becomes beta2 * v + (1 - beta2) * g^2; the parameter becomes
p - alpha_t * m / (sqrt v + eps) with
alpha_t = lr * sqrt(1 - beta2 ^ t) / (1 - beta1 ^ t) at the incremented
t and the updated m, v; then decoupled weight decay multiplies in
lr * weight_decay of the post-gradient-step value, using the original lr;
and the step call persists the updated m, v, t into the parameter's
state (last conjunct, for the one-parameter configuration in which the
resolved gradient is g itself). -/
theorem C1_per_parameter_update (sq : ℚ → ℚ) (h : Hyper) (st : ParameterState)
    (p g : Tensor) (k : ℕ)
    (hm : st.m.data.length = p.data.length)
    (hv : st.v.data.length = p.data.length)
    (hg : g.data.length = p.data.length)
    (hk : k < p.data.length)
    (hsp : g.sparse = false) :
    (update sq h (some st) p g).1.t = st.t + 1 ∧
    (update sq h (some st) p g).1.m.data.getD k 0 =
      h.beta1 * st.m.data.getD k 0 + (1 - h.beta1) * g.data.getD k 0 ∧
    (update sq h (some st) p g).1.v.data.getD k 0 =
      h.beta2 * st.v.data.getD k 0 +
        (1 - h.beta2) * (g.data.getD k 0 * g.data.getD k 0) ∧
    (update sq h (some st) p g).2.data.getD k 0 =
      (p.data.getD k 0 -
          h.lr * sq (1 - h.beta2 ^ (st.t + 1)) / (1 - h.beta1 ^ (st.t + 1)) *
              (update sq h (some st) p g).1.m.data.getD k 0 /
            (sq ((update sq h (some st) p g).1.v.data.getD k 0) + h.eps)) -
        h.lr * h.weight_decay *
          (p.data.getD k 0 -
            h.lr * sq (1 - h.beta2 ^ (st.t + 1)) / (1 - h.beta1 ^ (st.t + 1)) *
                (update sq h (some st) p g).1.m.data.getD k 0 /
              (sq ((update sq h (some st) p g).1.v.data.getD k 0) + h.eps)) ∧
    step sq h [[⟨p, some g, some st⟩]] =
      ([[⟨(update sq h (some st) p g).2, some g,
          some (update sq h (some st) p g).1⟩]], false) := by
  have hkm : k < st.m.data.length := by rw [hm]; exact hk
  have hkv : k < st.v.data.length := by rw [hv]; exact hk
  have hkg : k < g.data.length := by rw [hg]; exact hk
  have hMlen :
      k < (addT (smulT h.beta1 st.m) (smulT (1 - h.beta1) g)).data.length := by
    simp only [addT, smulT, List.length_zipWith, List.length_map]
    omega
  have hVlen :
      k < (addT (smulT h.beta2 st.v)
          (smulT (1 - h.beta2) (squareT g))).data.length := by
    simp only [addT, smulT, squareT, mapT, List.length_zipWith, List.length_map]
    omega
  have hmk : (addT (smulT h.beta1 st.m) (smulT (1 - h.beta1) g)).data.getD k 0 =
      h.beta1 * st.m.data.getD k 0 + (1 - h.beta1) * g.data.getD k 0 := by
    unfold addT smulT
    rw [zipWith_getD _ _ _ k (by simpa using hkm) (by simpa using hkg),
      map_getD _ _ k hkm, map_getD _ _ k hkg]
  have hvk : (addT (smulT h.beta2 st.v)
        (smulT (1 - h.beta2) (squareT g))).data.getD k 0 =
      h.beta2 * st.v.data.getD k 0 +
        (1 - h.beta2) * (g.data.getD k 0 * g.data.getD k 0) := by
    unfold addT smulT squareT mapT
    rw [zipWith_getD _ _ _ k (by simpa using hkv) (by simpa using hkg),
      map_getD _ _ k hkv, map_getD _ _ k (by simpa using hkg),
      map_getD _ _ k hkg]
  have hP1len : k < (subT p
      (divT
        (smulT (h.lr * sq (1 - h.beta2 ^ (st.t + 1)) / (1 - h.beta1 ^ (st.t + 1)))
          (addT (smulT h.beta1 st.m) (smulT (1 - h.beta1) g)))
        (addScalarT
          (mapT sq (addT (smulT h.beta2 st.v) (smulT (1 - h.beta2) (squareT g))))
          h.eps))).data.length := by
    simp only [subT, divT, smulT, addT, addScalarT, mapT, squareT,
      List.length_zipWith, List.length_map]
    omega
  have key4 := sub_smul_getD (h.lr * h.weight_decay) _ k hP1len
  rw [p1_getD (h.lr * sq (1 - h.beta2 ^ (st.t + 1)) / (1 - h.beta1 ^ (st.t + 1)))
      h.eps sq p
      (addT (smulT h.beta1 st.m) (smulT (1 - h.beta1) g))
      (addT (smulT h.beta2 st.v) (smulT (1 - h.beta2) (squareT g)))
      k hk hMlen hVlen] at key4
  exact ⟨rfl, hmk, hvk, key4, step_singleton sq h p g (some st) hsp⟩

/-- C1 witness: the step-count conjunct of the per-parameter update law
at a concrete input. -/
theorem C1_witness :
    (update id ⟨1, 1/2, 1/2, 1, 1, true⟩
        (some ⟨⟨[1], [2], false⟩, ⟨[1], [3], false⟩, 4⟩)
        ⟨[1], [5], false⟩ ⟨[1], [7], false⟩).1.t = 5 :=
  (C1_per_parameter_update id ⟨1, 1/2, 1/2, 1, 1, true⟩
    ⟨⟨[1], [2], false⟩, ⟨[1], [3], false⟩, 4⟩ ⟨[1], [5], false⟩
    ⟨[1], [7], false⟩ 0 rfl rfl rfl (by decide) rfl).1

theorem zipWith_sub_replicate_zero (d : List ℚ) :
    List.zipWith (fun x1 x2 => x1 - x2) d (List.replicate d.length 0) = d := by
  induction d with
  | nil => rfl
  | cons x xs ih => simp [List.replicate_succ, ih]

theorem smulT_zerosLike (c : ℚ) (p : Tensor) :
    smulT c (zerosLike p) = zerosLike p := by
  unfold smulT zerosLike
  simp only [List.map_map, Tensor.mk.injEq]
  refine ⟨trivial, ?_, trivial⟩
  exact List.map_congr_left fun x _ => by simp [Function.comp]

theorem addT_zerosLike (p : Tensor) :
    addT (zerosLike p) (zerosLike p) = zerosLike p := by
  unfold addT zerosLike
  simp only [Tensor.mk.injEq]
  refine ⟨trivial, ?_, trivial⟩
  rw [zipWith_map_same]
  exact List.map_congr_left fun x _ => by norm_num

theorem squareT_zerosLike (p : Tensor) :
    squareT (zerosLike p) = zerosLike p := by
  unfold squareT mapT zerosLike
  simp only [List.map_map, Tensor.mk.injEq]
  refine ⟨trivial, ?_, trivial⟩
  exact List.map_congr_left fun x _ => by simp [Function.comp]

/-- An update step fed the all-zero gradient from the all-zero moment
state leaves the parameter value unchanged and the moments at zero,
incrementing only the counter, provided weight_decay = 0. -/
theorem update_zero (sq : ℚ → ℚ) (h : Hyper) (hw : h.weight_decay = 0)
    (p : Tensor) (t : ℕ) :
    update sq h (some ⟨zerosLike p, zerosLike p, t⟩) p (zerosLike p) =
      (⟨zerosLike p, zerosLike p, t + 1⟩, p) := by
  have hm : addT (smulT h.beta1 (zerosLike p))
      (smulT (1 - h.beta1) (zerosLike p)) = zerosLike p := by
    rw [smulT_zerosLike, smulT_zerosLike, addT_zerosLike]
  have hv : addT (smulT h.beta2 (zerosLike p))
      (smulT (1 - h.beta2) (squareT (zerosLike p))) = zerosLike p := by
    rw [squareT_zerosLike, smulT_zerosLike, smulT_zerosLike, addT_zerosLike]
  have hp1 : ∀ A : ℚ,
      subT p (divT (smulT A (zerosLike p))
        (addScalarT (mapT sq (zerosLike p)) h.eps)) = p := by
    intro A
    rw [smulT_zerosLike]
    rcases p with ⟨sh, d, sp⟩
    unfold subT divT addScalarT mapT zerosLike
    simp [List.map_map, zipWith_map_same, zipWith_map_right_same, Function.comp,
      zipWith_sub_replicate_zero]
  have hp2 : subT p (smulT (h.lr * h.weight_decay) p) = p := by
    rw [hw, mul_zero, subT_smulT_self, sub_zero, smulT_one]
  unfold update
  simp only [Option.getD_some]
  rw [hm, hv, hp1, hp2]

/-- A step on the singleton configuration, expressed through singleStep. -/
theorem singleStep_eq (sq : ℚ → ℚ) (h : Hyper) (p g : Tensor)
    (st0 : Option ParameterState) (hsp : g.sparse = false) :
    singleStep sq h ⟨p, some g, st0⟩ =
      ⟨(update sq h st0 p g).2, some g, some (update sq h st0 p g).1⟩ := by
  unfold singleStep
  rw [step_singleton sq h p g st0 hsp]

theorem subT_zerosLike (p : Tensor) : subT p (zerosLike p) = p := by
  rcases p with ⟨sh, d, sp⟩
  unfold subT zerosLike
  simp [zipWith_map_right_same, zipWith_sub_replicate_zero]

theorem divDataChecked_map_zero (g : ℚ → ℚ) (hg : ∀ x : ℚ, g x ≠ 0) :
    ∀ l : List ℚ,
      divDataChecked (l.map fun _ => 0) (l.map g) =
        some (l.map fun _ => (0 : ℚ)) := by
  intro l
  induction l with
  | nil => rfl
  | cons x xs ih =>
    simp only [List.map_cons, divDataChecked]
    rw [if_neg (hg x), ih]
    simp [zero_div]

/-- A checked update step fed the all-zero gradient from the all-zero
moment state succeeds (the elementwise denominator sqrt(0) + eps is
nonzero), leaving the value unchanged, the moments at zero and
incrementing only the counter, provided weight_decay = 0. -/
theorem updateChecked_zero (sq : ℚ → ℚ) (h : Hyper) (p : Tensor) (t0 : ℕ)
    (hden : sq 0 + h.eps ≠ 0) (hw : h.weight_decay = 0) :
    updateChecked sq h (some ⟨zerosLike p, zerosLike p, t0⟩) p (zerosLike p) =
      some (⟨zerosLike p, zerosLike p, t0 + 1⟩, p) := by
  have hm : addT (smulT h.beta1 (zerosLike p))
      (smulT (1 - h.beta1) (zerosLike p)) = zerosLike p := by
    rw [smulT_zerosLike, smulT_zerosLike, addT_zerosLike]
  have hv : addT (smulT h.beta2 (zerosLike p))
      (smulT (1 - h.beta2) (squareT (zerosLike p))) = zerosLike p := by
    rw [squareT_zerosLike, smulT_zerosLike, smulT_zerosLike, addT_zerosLike]
  have hdvd : ∀ A : ℚ, divTChecked (smulT A (zerosLike p))
      (addScalarT (mapT sq (zerosLike p)) h.eps) = some (zerosLike p) := by
    intro A
    rw [smulT_zerosLike]
    unfold divTChecked addScalarT mapT zerosLike
    simp only [List.map_map]
    rw [divDataChecked_map_zero ((fun x => x + h.eps) ∘ sq ∘ fun _ => (0 : ℚ))
      (fun x => by simpa [Function.comp] using hden) p.data]
  unfold updateChecked
  simp only [Option.getD_some]
  rw [hm, hv, hdvd]
  dsimp only
  rw [subT_zerosLike, hw, mul_zero, subT_smulT_self, sub_zero, smulT_one]

/-- C8 counterexample: the claim quantifies over every valid
hyperparameter set, and validity allows eps = 0.  There, the very first
zero-gradient step computes the elementwise division 0 / (sqrt(0) + 0)
= 0 / 0 at optimizer.py line 77, which is NaN in float arithmetic, so
the parameter value is not exactly unchanged.  With sq = id (the real
square root also sends 0 to 0) the checked update records the division
by zero at this concrete valid input with weight_decay = 0. -/
theorem C8_counterexample :
    validHyperSpec ⟨1, 1/2, 1/2, 0, 0, true⟩ ∧
    (⟨1, 1/2, 1/2, 0, 0, true⟩ : Hyper).weight_decay = 0 ∧
    updateChecked id ⟨1, 1/2, 1/2, 0, 0, true⟩ none ⟨[1], [1], false⟩
        (zerosLike ⟨[1], [1], false⟩) = none := by
  refine ⟨?_, ?_, ?_⟩ <;> with_unfolding_all decide

/-- C8 amended: for every valid hyperparameter set with weight_decay = 0
and eps > 0 (and a square root nonnegative at 0, as the real one is),
repeatedly stepping a single managed parameter with the all-zero gradient
increments the step count by one per step, keeps both moment estimates at
exactly zero forever, and leaves the parameter value exactly unchanged
after every step; moreover no division by zero occurs on this domain: the
scalar denominator 1 - beta1 ^ t is nonzero for every step count, and the
checked update (which fails on a zero elementwise denominator) succeeds
with exactly the unchanged value, both from the fresh state and from any
already-zero state. -/
theorem C8_amended (sq : ℚ → ℚ) (h : Hyper) (p : Tensor)
    (hsq : 0 ≤ sq 0) (hval : validHyperSpec h) (heps : 0 < h.eps)
    (hw : h.weight_decay = 0) :
    (∀ t0 : ℕ, (1 : ℚ) - h.beta1 ^ (t0 + 1) ≠ 0) ∧
    (updateChecked sq h none p (zerosLike p) =
      some (⟨zerosLike p, zerosLike p, 1⟩, p)) ∧
    (∀ t0 : ℕ,
      updateChecked sq h (some ⟨zerosLike p, zerosLike p, t0⟩) p
        (zerosLike p) = some (⟨zerosLike p, zerosLike p, t0 + 1⟩, p)) ∧
    (∀ n : ℕ, (singleStep sq h)^[n + 1] ⟨p, some (zerosLike p), none⟩ =
      ⟨p, some (zerosLike p), some ⟨zerosLike p, zerosLike p, n + 1⟩⟩) := by
  have hden : sq 0 + h.eps ≠ 0 := ne_of_gt (by linarith)
  have hz : (zerosLike p).sparse = false := rfl
  have hone : ∀ st0 : Option ParameterState,
      singleStep sq h ⟨p, some (zerosLike p), st0⟩ =
        ⟨(update sq h st0 p (zerosLike p)).2, some (zerosLike p),
          some (update sq h st0 p (zerosLike p)).1⟩ :=
    fun st0 => singleStep_eq sq h p (zerosLike p) st0 hz
  have hu0 : update sq h none p (zerosLike p) =
      (⟨zerosLike p, zerosLike p, 1⟩, p) :=
    update_zero sq h hw p 0
  refine ⟨?_, ?_, ?_, ?_⟩
  · intro t0
    have hb : h.beta1 ^ (t0 + 1) < 1 :=
      pow_lt_one₀ hval.2.1 hval.2.2.1 (Nat.succ_ne_zero t0)
    exact ne_of_gt (by linarith)
  · exact updateChecked_zero sq h p 0 hden hw
  · exact fun t0 => updateChecked_zero sq h p t0 hden hw
  · intro n
    induction n with
    | zero =>
      rw [Function.iterate_one, hone, hu0]
    | succ n ih =>
      rw [Function.iterate_succ_apply', ih, hone,
        update_zero sq h hw p (n + 1)]

/-- C8 witness: a checked zero-gradient step at a concrete input with
eps = 1 succeeds and leaves the value exactly unchanged, via the amended
theorem. -/
theorem C8_witness :
    updateChecked id ⟨1, 1/2, 1/2, 1, 0, true⟩ none ⟨[2], [3, 4], false⟩
        (zerosLike ⟨[2], [3, 4], false⟩) =
      some (⟨zerosLike ⟨[2], [3, 4], false⟩, zerosLike ⟨[2], [3, 4], false⟩, 1⟩,
        ⟨[2], [3, 4], false⟩) :=
  (C8_amended id ⟨1, 1/2, 1/2, 1, 0, true⟩ ⟨[2], [3, 4], false⟩ (le_refl 0)
    (by with_unfolding_all decide) (by with_unfolding_all decide) rfl).2.1

/-! ### The conflict-resolution pass refines its specification -/

theorem surgeryPair_cons_succ (a : Tensor) (l : List Tensor) (i j : ℕ) :
    surgeryPair (a :: l) (i + 1) (j + 1) = a :: surgeryPair l i j := by
  unfold surgeryPair
  simp only [List.getD_cons_succ, List.set_cons_succ]
  split_ifs <;> rfl

theorem surgeryPair_cons_zero (a : Tensor) (l : List Tensor) (k : ℕ) :
    surgeryPair (a :: l) 0 (k + 1) =
      projectAgainst a (l.getD k default) :: l := by
  unfold surgeryPair projectAgainst
  simp only [List.getD_cons_zero, List.getD_cons_succ, List.set_cons_zero]
  split_ifs <;> first | rfl | tauto

theorem row_zero_fold (l : List Tensor) :
    ∀ (js : List ℕ) (a : Tensor),
      ((js.map fun j => j + 1).foldl (fun gs j => surgeryPair gs 0 j) (a :: l)) =
        js.foldl (fun g j => projectAgainst g (l.getD j default)) a :: l := by
  intro js
  induction js with
  | nil => intro a; rfl
  | cons j js ih =>
    intro a
    simp only [List.map_cons, List.foldl_cons]
    rw [surgeryPair_cons_zero]
    exact ih (projectAgainst a (l.getD j default))

theorem foldl_getD_range (l : List Tensor) :
    ∀ g : Tensor,
      (List.range l.length).foldl
          (fun acc j => projectAgainst acc (l.getD j default)) g =
        l.foldl projectAgainst g := by
  induction l with
  | nil => intro g; rfl
  | cons x xs ih =>
    intro g
    rw [List.length_cons, List.range_succ_eq_map]
    simp only [List.foldl_cons, List.getD_cons_zero, List.foldl_map,
      List.getD_cons_succ]
    exact ih (projectAgainst g x)

theorem inner_shift (i : ℕ) :
    ∀ (js : List ℕ) (a : Tensor) (l : List Tensor),
      ((js.map fun j => j + 1).foldl
          (fun gs j => surgeryPair gs (i + 1) j) (a :: l)) =
        a :: js.foldl (fun gs j => surgeryPair gs i j) l := by
  intro js
  induction js with
  | nil => intro a l; rfl
  | cons j js ih =>
    intro a l
    simp only [List.map_cons, List.foldl_cons]
    rw [surgeryPair_cons_succ]
    exact ih a (surgeryPair l i j)

theorem succ_map_eq_add_one (xs : List ℕ) :
    xs.map Nat.succ = xs.map fun j => j + 1 :=
  List.map_congr_left fun _ _ => rfl

theorem outer_shift (m : ℕ) :
    ∀ (is : List ℕ) (a : Tensor) (l : List Tensor),
      ((is.map fun i => i + 1).foldl
          (fun gs1 i => ((0 :: (List.range m).map fun j => j + 1).drop (i + 1)).foldl
            (fun gs2 j => surgeryPair gs2 i j) gs1) (a :: l)) =
        a :: is.foldl
          (fun gs1 i => ((List.range m).drop (i + 1)).foldl
            (fun gs2 j => surgeryPair gs2 i j) gs1) l := by
  intro is
  induction is with
  | nil => intro a l; rfl
  | cons i is ih =>
    intro a l
    simp only [List.map_cons, List.foldl_cons]
    have hdrop : ((0 :: (List.range m).map fun j => j + 1).drop (i + 1 + 1)) =
        ((List.range m).drop (i + 1)).map fun j => j + 1 := by
      rw [List.drop_succ_cons, ← List.map_drop]
    rw [hdrop, inner_shift i ((List.range m).drop (i + 1)) a l]
    exact ih a _

/-- C2: the conflict-resolution pass equals, on every input list of
present gradients, the specification recursion: each g[i] is folded (in
ascending j order, sequentially, seeing its own earlier updates) through
the projection against every later gradient g[j] — skipped when shapes
differ, applied exactly when the dot product is positive with the
formula g[i] - (d / normSq g[j]) * g[j] — while each g[j] itself is left
unmodified by the pairs (i, j) and still holds its original value when
row i runs (index j is only modified by its own later row).  The pass is
a pure function of the gradient snapshot; ParameterState does not occur
in its type. -/
theorem C2_surgery_refines_spec :
    ∀ gs : List Tensor, gradient_surgery gs = surgerySpec gs := by
  intro gs
  induction gs with
  | nil => rfl
  | cons g l ih =>
    show (List.range (g :: l).length).foldl
        (fun gs1 i => ((List.range (g :: l).length).drop (i + 1)).foldl
          (fun gs2 j => surgeryPair gs2 i j) gs1) (g :: l) =
      surgerySpec (g :: l)
    rw [List.length_cons, List.range_succ_eq_map, succ_map_eq_add_one]
    simp only [List.foldl_cons]
    rw [List.drop_succ_cons, List.drop_zero]
    rw [row_zero_fold l (List.range l.length) g]
    rw [foldl_getD_range l g]
    rw [outer_shift l.length (List.range l.length) (l.foldl projectAgainst g) l]
    show _ :: gradient_surgery l = surgerySpec (g :: l)
    rw [ih]
    rfl

end AdamW
